import Mathlib

/-!
Verification of the unused-import removal core of the `kazuki` extension.

The source file `unusedImports.ts` is shallowly embedded below: its data
model (`UnusedImport`, the per-import record collected by `collectImports`),
the tree walks `collectImports` and `collectUsedIdentifiers`, the resolver
`filterUnusedImports`, and the edit planner/applier `applyRemovalEdits`.
Source text is modelled as `List Char`; the editor document API
(`positionAt`, `lineAt(...).rangeIncludingLineBreak`, sequential deletion)
is modelled over the same text.  The external syntax parser
(`ts.createSourceFile`) is not part of the repository; where a claim needs
it (the end-to-end pipeline) it is modelled from the spec as a line-based
statement-level parser.
-/

namespace Kazuki

/-- Source text, one entry per UTF-16 code unit of the original string. -/
abbrev Text := List Char

/-- The usage set (`Set<string>` in the source); membership-only semantics. -/
abbrev UsageSet := List String

/-- The `UnusedImport` record from `unusedImports.ts` (fields `start`, `end`,
`importName`, `line`; `end` is spelled `endPos` here). -/
structure UnusedImport where
  start : Nat
  endPos : Nat
  importName : String
  line : Nat
  deriving Repr, DecidableEq

/-- A named-import specifier: `name` is the local name (`element.name.text`),
`propertyName` is the original name when the specifier is aliased
(`element.propertyName`). -/
structure ImportSpecifier where
  name : String
  propertyName : Option String
  deriving Repr, DecidableEq

/-- Model of `importClause.namedBindings`: either named imports or a namespace import. -/
inductive NamedBindings where
  | named (elements : List ImportSpecifier)
  | namespaceBinding (name : String)
  deriving Repr, DecidableEq

/-- Model of `importClause`: optional default-import name plus optional named bindings. -/
structure ImportClause where
  name : Option String
  namedBindings : Option NamedBindings
  deriving Repr, DecidableEq

/-- A JSX tag name: a plain identifier or anything compound
(property access / namespaced tag). -/
inductive JsxTagName where
  | ident (text : String)
  | compound
  deriving Repr, DecidableEq

/-- Shallow syntax-tree node.  Import declarations carry their clause and
their span (`getFullStart()` / `getEnd()`); identifiers carry their text;
JSX opening and self-closing elements carry their tag name.  Every node
carries the child list visited by `ts.forEachChild`. -/
inductive Node where
  | importDecl (clause : Option ImportClause) (start endPos : Nat) (children : List Node)
  | identifier (text : String) (children : List Node)
  | jsxOpening (tag : JsxTagName) (children : List Node)
  | jsxSelfClosing (tag : JsxTagName) (children : List Node)
  | other (children : List Node)

/-- The per-import record built by `collectImports`
(`{ node; importedNames; start; end }`, minus the node itself). -/
structure ImportInfo where
  importedNames : List String
  start : Nat
  endPos : Nat
  deriving Repr, DecidableEq

/-- The `importedNames` array built inside `collectImports` for one import
declaration: default name first, then for each named specifier the local
name followed (when aliased) by the original name, or the namespace alias. -/
def importedNamesOfClause : Option ImportClause → List String
  | none => []
  | some c =>
    (match c.name with
     | some n => [n]
     | none => []) ++
    (match c.namedBindings with
     | none => []
     | some (.named elements) =>
        elements.flatMap (fun el =>
          el.name :: (match el.propertyName with
                      | some p => [p]
                      | none => []))
     | some (.namespaceBinding n) => [n])

mutual

/-- Source function `collectImports`: visit every node, record each import declaration. -/
def collectImports : Node → List ImportInfo
  | .importDecl clause start endPos children =>
      ⟨importedNamesOfClause clause, start, endPos⟩ :: collectImportsList children
  | .identifier _ children => collectImportsList children
  | .jsxOpening _ children => collectImportsList children
  | .jsxSelfClosing _ children => collectImportsList children
  | .other children => collectImportsList children

/-- The `ts.forEachChild` part of `collectImports`. -/
def collectImportsList : List Node → List ImportInfo
  | [] => []
  | n :: ns => collectImports n ++ collectImportsList ns

end

mutual

/-- Source function `collectUsedIdentifiers`: skip import-declaration subtrees entirely;
record identifier texts; record plain-identifier JSX tag names. -/
def collectUsedIdentifiers : Node → UsageSet
  | .importDecl _ _ _ _ => []
  | .identifier text children => text :: collectUsedIdentifiersList children
  | .jsxOpening tag children =>
      (match tag with
       | .ident t => [t]
       | .compound => []) ++ collectUsedIdentifiersList children
  | .jsxSelfClosing tag children =>
      (match tag with
       | .ident t => [t]
       | .compound => []) ++ collectUsedIdentifiersList children
  | .other children => collectUsedIdentifiersList children

/-- The `ts.forEachChild` part of `collectUsedIdentifiers`. -/
def collectUsedIdentifiersList : List Node → UsageSet
  | [] => []
  | n :: ns => collectUsedIdentifiers n ++ collectUsedIdentifiersList ns

end

/-- JavaScript `string.split(sep)` for a one-character separator:
the result has one more chunk than there are separators. -/
def splitOnChar (sep : Char) : Text → List Text
  | [] => [[]]
  | c :: cs =>
    if c = sep then [] :: splitOnChar sep cs
    else
      match splitOnChar sep cs with
      | [] => [[c]]
      | chunk :: chunks => (c :: chunk) :: chunks

/-- The `UnusedImport` record pushed by `filterUnusedImports` for a
flagged import: `line = text.substring(0, start).split('\n').length`,
`importName = importedNames.join(', ')`. -/
def mkFinding (text : Text) (i : ImportInfo) : UnusedImport :=
  { start := i.start
    endPos := i.endPos
    importName := String.intercalate ", " i.importedNames
    line := (splitOnChar '\n' (text.take i.start)).length }

/-- Source function `filterUnusedImports`: skip side-effect imports (empty `importedNames`),
skip imports any of whose names is in the usage set, flag the rest. -/
def filterUnusedImports : List ImportInfo → UsageSet → Text → List UnusedImport
  | [], _, _ => []
  | i :: rest, usedIdentifiers, text =>
    if i.importedNames.length = 0 then
      filterUnusedImports rest usedIdentifiers text
    else if i.importedNames.any (fun name => usedIdentifiers.contains name) then
      filterUnusedImports rest usedIdentifiers text
    else
      mkFinding text i :: filterUnusedImports rest usedIdentifiers text

/-- Source function `findUnusedImports`: collect imports and used identifiers from the same
tree, then resolve. -/
def findUnusedImports (sourceFile : Node) (text : Text) : List UnusedImport :=
  filterUnusedImports (collectImports sourceFile) (collectUsedIdentifiers sourceFile) text

/-- Source function `isSupportedFile`: the four supported language ids. -/
def isSupportedFile (languageId : String) : Bool :=
  ["javascript", "typescript", "javascriptreact", "typescriptreact"].contains languageId

/-! ## The editor document model

`vscode.TextDocument` is modelled over the same `Text`: a document is its
full text; `positionAt(offset).line` is the number of line breaks strictly
before `offset`; `lineAt(n).rangeIncludingLineBreak` is the span of the
`n`-th line including its trailing line terminator. -/

/-- Split a text into its lines, each line keeping its trailing `'\n'`
(the last line has none when the text does not end in `'\n'`).
Every chunk is non-empty and their concatenation is the original text. -/
def splitLinesKB : Text → List Text
  | [] => []
  | c :: cs =>
    if c = '\n' then [c] :: splitLinesKB cs
    else
      match splitLinesKB cs with
      | [] => [[c]]
      | l :: ls => (c :: l) :: ls

/-- Offset at which line `k` starts: the total length of the first `k`
line chunks. -/
def offsetOfLine (lines : List Text) (k : Nat) : Nat :=
  (((lines.map List.length).take k)).sum

/-- Model of `document.positionAt(offset).line`: the number of line breaks strictly
before `offset`. -/
def lineIndexAt (text : Text) (offset : Nat) : Nat :=
  ((text.take offset).filter (fun c => c = '\n')).length

/-- Model of `document.lineAt(k).rangeIncludingLineBreak`, as a half-open offset
range over the document's text. -/
def lineRangeIncludingBreak (text : Text) (k : Nat) : Nat × Nat :=
  (offsetOfLine (splitLinesKB text) k, offsetOfLine (splitLinesKB text) (k + 1))

/-- The deletion range planned for one finding: the whole line containing
the finding's start offset, line break included
(`document.lineAt(document.positionAt(start).line).rangeIncludingLineBreak`). -/
def planEdit (text : Text) (f : UnusedImport) : Nat × Nat :=
  lineRangeIncludingBreak text (lineIndexAt text f.start)

/-- Apply one deletion range to a text. -/
def deleteRange (text : Text) (r : Nat × Nat) : Text :=
  text.take r.1 ++ text.drop r.2

/-- Insertion step for the descending-by-start sort
(`unusedImports.sort((a, b) => b.start - a.start)`). -/
def insertByStartDesc (x : UnusedImport) : List UnusedImport → List UnusedImport
  | [] => [x]
  | y :: ys =>
    if y.start ≤ x.start then x :: y :: ys
    else y :: insertByStartDesc x ys

/-- Sort findings by descending start offset. -/
def sortByStartDesc : List UnusedImport → List UnusedImport
  | [] => []
  | x :: xs => insertByStartDesc x (sortByStartDesc xs)

/-- Source function `applyRemovalEdits`: sort the findings by descending start offset, plan
one whole-line deletion per finding against the original document's
coordinates, and apply the deletions in that order, each against the text
left by the previous one. -/
def applyRemovalEdits (text : Text) (unusedImports : List UnusedImport) : Text :=
  ((sortByStartDesc unusedImports).map (planEdit text)).foldl deleteRange text

/-! ## The spec-modelled parser

`ts.createSourceFile` is an external library, not code of this repository.
The definitions below are the substitute the spec explicitly allows
(design note §9: "a hand-built recursive-descent parser limited to
statement-level recognition of import forms, provided it reports accurate
source spans"). -/

/-- Modelled from the spec: an identifier character of the scanned language
(letters, digits, underscore, dollar). -/
def isIdentChar (c : Char) : Bool :=
  c.isAlphanum || c = '_' || c = '$'

/-- Modelled from the spec: scan the maximal identifier-character runs of a
line, i.e. every identifier name referenced on it. `acc` holds the
(reversed) run being scanned. -/
def scanIdentsAux : Text → List Char → List String
  | [], acc => if acc.isEmpty then [] else [String.mk acc.reverse]
  | c :: cs, acc =>
    if isIdentChar c then scanIdentsAux cs (c :: acc)
    else if acc.isEmpty then scanIdentsAux cs []
    else String.mk acc.reverse :: scanIdentsAux cs []

/-- Modelled from the spec: the identifier names referenced on one line. -/
def scanIdents (l : Text) : List String :=
  scanIdentsAux l []

/-- Drop leading blanks. -/
def dropBlanks (t : Text) : Text :=
  t.dropWhile (fun c => c = ' ' || c = '\t')

/-- Take the longest identifier prefix and return it with the rest. -/
def takeIdent (t : Text) : String × Text :=
  (String.mk (t.takeWhile isIdentChar), t.dropWhile isIdentChar)

/-- Modelled from the spec: parse the inside of a named-import brace list,
one comma-separated specifier at a time (`a` or `a as b`). -/
def parseSpecifier (piece : Text) : ImportSpecifier :=
  let (first, rest) := takeIdent (dropBlanks piece)
  let (kw, rest2) := takeIdent (dropBlanks rest)
  if kw = "as" then
    let (alias_, _) := takeIdent (dropBlanks rest2)
    { name := alias_, propertyName := some first }
  else
    { name := first, propertyName := none }

/-- Modelled from the spec: parse a named-bindings brace list
`{ a, b as c, ... }` given the text after the opening brace. -/
def parseNamedList (t : Text) : List ImportSpecifier :=
  let inside := t.takeWhile (fun c => c ≠ '}')
  (splitOnChar ',' inside).map parseSpecifier

/-- Modelled from the spec: statement-level recognition of the import forms
on one line. Returns `none` for a non-import line, and `some clause` for
an import line (`clause = none` is a side-effect-only import); a
structurally atypical import clause yields empty binding names. -/
def parseImportLine (l : Text) : Option (Option ImportClause) :=
  let r := dropBlanks l
  let (kw, rest) := takeIdent r
  if kw ≠ "import" then none
  else
    let rest := dropBlanks rest
    match rest with
    | [] => some (some ⟨none, none⟩)
    | c :: cs =>
      if c = '"' ∨ c = '\'' then
        -- side-effect-only import: no clause
        some none
      else if c = '*' then
        -- namespace import: `* as X`
        let (kw2, r2) := takeIdent (dropBlanks cs)
        if kw2 = "as" then
          let (x, _) := takeIdent (dropBlanks r2)
          if x = "" then some (some ⟨none, none⟩)
          else some (some ⟨none, some (.namespaceBinding x)⟩)
        else some (some ⟨none, none⟩)
      else if c = '{' then
        -- named imports: `{ a, b as c }`
        some (some ⟨none, some (.named (parseNamedList cs))⟩)
      else
        -- default import, possibly followed by `, { ... }` or `, * as X`
        let (d, r2) := takeIdent rest
        if d = "" then some (some ⟨none, none⟩)
        else
          let dflt := some d
          match dropBlanks r2 with
          | ',' :: r3 =>
            match dropBlanks r3 with
            | '{' :: r4 => some (some ⟨dflt, some (.named (parseNamedList r4))⟩)
            | '*' :: r4 =>
              let (kw2, r5) := takeIdent (dropBlanks r4)
              if kw2 = "as" then
                let (x, _) := takeIdent (dropBlanks r5)
                if x = "" then some (some ⟨dflt, none⟩)
                else some (some ⟨dflt, some (.namespaceBinding x)⟩)
              else some (some ⟨dflt, none⟩)
            | _ => some (some ⟨dflt, none⟩)
          | _ => some (some ⟨dflt, none⟩)

/-- Modelled from the spec: the syntax-tree node of one source line starting
at offset `off`: an import declaration spanning the line, or a plain node
whose children are the identifiers referenced on the line. -/
def lineNode (off : Nat) (l : Text) : Node :=
  match parseImportLine l with
  | some clause => .importDecl clause off (off + l.length) []
  | none => .other ((scanIdents l).map (fun s => .identifier s []))

/-- Modelled from the spec: the children of the source-file node, one per
line, with accurate offsets. -/
def buildNodes (off : Nat) : List Text → List Node
  | [] => []
  | l :: ls => lineNode off l :: buildNodes (off + l.length) ls

/-- Modelled from the spec: the external syntax parser
(`ts.createSourceFile`), substituted by the line-based statement-level
parser §9 allows. -/
def parseText (text : Text) : Node :=
  .other (buildNodes 0 (splitLinesKB text))

/-! ## The command handler -/

/-- Outcome of the `removeUnusedImports` command. -/
inductive HandlerResult where
  | unsupportedFileKind
  | noUnusedImports
  | removed (count : Nat)
  deriving Repr, DecidableEq

/-- Source function `removeUnusedImportsHandler` on an open document: reject unsupported
language ids without touching the text; otherwise parse, analyse, and when
there are findings apply the removal edits. Returns the outcome report and
the resulting document text. -/
def removeUnusedImportsHandler (languageId : String) (text : Text) :
    HandlerResult × Text :=
  if ¬ isSupportedFile languageId then
    (.unsupportedFileKind, text)
  else
    let sourceFile := parseText text
    let unusedImports := findUnusedImports sourceFile text
    if unusedImports.length = 0 then
      (.noUnusedImports, text)
    else
      (.removed unusedImports.length, applyRemovalEdits text unusedImports)

/-! ## Specification-side definitions used by the theorems -/

/-- The resolver's flagging condition, as the spec states it: the record
has a non-empty binding-name set and none of its names is a member of the
usage set. -/
def flagRecord (i : ImportInfo) (used : UsageSet) : Prop :=
  i.importedNames ≠ [] ∧ ∀ n ∈ i.importedNames, n ∉ used

instance (i : ImportInfo) (used : UsageSet) : Decidable (flagRecord i used) := by
  unfold flagRecord; infer_instance

/-- Keep exactly the lines whose index is not flagged. -/
def keepLines : List Text → (Nat → Bool) → List Text
  | [], _ => []
  | l :: ls, flagged =>
    if flagged 0 then keepLines ls (fun k => flagged (k + 1))
    else l :: keepLines ls (fun k => flagged (k + 1))

/-- The import records of a list of lines starting at offset `off`, as the
modelled parser and `collectImports` produce them. -/
def importsOfLines : Nat → List Text → List ImportInfo
  | _, [] => []
  | off, l :: ls =>
    (match parseImportLine l with
     | some clause => [⟨importedNamesOfClause clause, off, off + l.length⟩]
     | none => []) ++ importsOfLines (off + l.length) ls

/-- The used identifiers contributed by one line: none for an import line,
its scanned identifiers otherwise. -/
def usedOfLine (l : Text) : UsageSet :=
  match parseImportLine l with
  | some _ => []
  | none => scanIdents l

/-- The usage set of a list of lines. -/
def usedOfLines (ls : List Text) : UsageSet :=
  ls.flatMap usedOfLine

/-- Whether a line holds an import statement the resolver flags against
`used` (the flag does not depend on the line's offset). -/
def flagLineB (used : UsageSet) (l : Text) : Bool :=
  match parseImportLine l with
  | some clause => decide (flagRecord ⟨importedNamesOfClause clause, 0, 0⟩ used)
  | none => false

/-- The findings of a list of lines starting at offset `off`. -/
def findingsOfLines (used : UsageSet) (text : Text) : Nat → List Text → List UnusedImport
  | _, [] => []
  | off, l :: ls =>
    (match parseImportLine l with
     | some clause =>
        if flagRecord ⟨importedNamesOfClause clause, off, off + l.length⟩ used
        then [mkFinding text ⟨importedNamesOfClause clause, off, off + l.length⟩]
        else []
     | none => []) ++ findingsOfLines used text (off + l.length) ls

/-- The indices of the lines `flagLineB` flags. -/
def flaggedIdxs (used : UsageSet) : List Text → List Nat
  | [] => []
  | l :: ls =>
    if flagLineB used l then 0 :: (flaggedIdxs used ls).map (· + 1)
    else (flaggedIdxs used ls).map (· + 1)

/-- A line closed by its terminator: a `'\n'`-free body plus the `'\n'`. -/
def ClosedLine (l : Text) : Prop :=
  ∃ s, l = s ++ ['\n'] ∧ '\n' ∉ s

/-- A non-empty terminator-less final line. -/
def FinalLine (l : Text) : Prop :=
  l ≠ [] ∧ '\n' ∉ l

/-- A well-formed line decomposition: every line is closed, except that the
last may instead be a terminator-less final line. -/
inductive GoodLines : List Text → Prop
  | nil : GoodLines []
  | single (l : Text) : ClosedLine l ∨ FinalLine l → GoodLines [l]
  | cons (l l₂ : Text) (ls : List Text) :
      ClosedLine l → GoodLines (l₂ :: ls) → GoodLines (l :: l₂ :: ls)

/-! ## Helper lemmas about the resolver -/

theorem filterUnusedImports_eq_filterMap (imports : List ImportInfo) (used : UsageSet)
    (text : Text) :
    filterUnusedImports imports used text =
      imports.filterMap (fun i => if flagRecord i used then some (mkFinding text i) else none) := by
  induction imports with
  | nil => rfl
  | cons i rest ih =>
    rw [filterUnusedImports, List.filterMap_cons]
    by_cases h1 : i.importedNames.length = 0
    · rw [if_pos h1]
      have hni : ¬ flagRecord i used := fun hf => hf.1 (List.length_eq_zero.mp h1)
      rw [if_neg hni, ih]
    · rw [if_neg h1]
      by_cases h2 : (i.importedNames.any fun name => used.contains name) = true
      · rw [if_pos h2]
        have hni : ¬ flagRecord i used := by
          intro hf
          rcases List.any_eq_true.mp h2 with ⟨n, hn, hc⟩
          exact hf.2 n hn (List.elem_iff.mp hc)
        rw [if_neg hni, ih]
      · rw [if_neg h2]
        have hfi : flagRecord i used := by
          refine ⟨fun he => h1 (by simp [he]), fun n hn hmem => ?_⟩
          exact h2 (List.any_eq_true.mpr ⟨n, hn, List.elem_iff.mpr hmem⟩)
        rw [if_pos hfi, ih]

theorem mem_filterUnused_of_flagged (imports : List ImportInfo) (i : ImportInfo)
    (used : UsageSet) (text : Text) (hi : i ∈ imports) (hf : flagRecord i used) :
    mkFinding text i ∈ filterUnusedImports imports used text := by
  rw [filterUnusedImports_eq_filterMap]
  exact List.mem_filterMap.mpr ⟨i, hi, by rw [if_pos hf]⟩

theorem mem_filterUnused_elim (imports : List ImportInfo) (used : UsageSet) (text : Text)
    (u : UnusedImport) (hu : u ∈ filterUnusedImports imports used text) :
    ∃ i ∈ imports, flagRecord i used ∧ u = mkFinding text i := by
  rw [filterUnusedImports_eq_filterMap] at hu
  rcases List.mem_filterMap.mp hu with ⟨j, hj, hjeq⟩
  by_cases hfj : flagRecord j used
  · rw [if_pos hfj] at hjeq
    exact ⟨j, hj, hfj, (Option.some_injective _ hjeq).symm⟩
  · rw [if_neg hfj] at hjeq
    exact absurd hjeq (Option.noConfusion)

theorem start_ne_of_pairwise (imports : List ImportInfo) (i j : ImportInfo)
    (hdist : imports.Pairwise (fun a b => a.start ≠ b.start))
    (hi : i ∈ imports) (hj : j ∈ imports) (hne : i ≠ j) : i.start ≠ j.start :=
  List.Pairwise.forall (fun _ _ h => h.symm) hdist hi hj hne

theorem no_finding_of_not_flagged (imports : List ImportInfo) (i : ImportInfo)
    (used : UsageSet) (text : Text) (hi : i ∈ imports)
    (hdist : imports.Pairwise (fun a b => a.start ≠ b.start))
    (hnf : ¬ flagRecord i used) :
    ∀ u ∈ filterUnusedImports imports used text, u.start ≠ i.start := by
  intro u hu
  rcases mem_filterUnused_elim imports used text u hu with ⟨j, hj, hfj, rfl⟩
  have hji : j ≠ i := fun h => hnf (h ▸ hfj)
  exact start_ne_of_pairwise imports j i hdist hj hi hji

/-! ## Claims about the resolver -/

/-- C1: an import statement with a non-empty set of binding names is flagged
as unused if and only if none of its binding names is a member of the
collected usage set: the resolver's output is exactly the findings of the
records whose binding-name list is non-empty and disjoint from the usage
set, so a single used name retains the whole statement. -/
theorem c1_flagged_iff_all_names_unused (imports : List ImportInfo) (used : UsageSet)
    (text : Text) :
    filterUnusedImports imports used text =
      imports.filterMap (fun i =>
        if i.importedNames ≠ [] ∧ ∀ n ∈ i.importedNames, n ∉ used
        then some (mkFinding text i) else none) :=
  filterUnusedImports_eq_filterMap imports used text

/-- C3: an import record with an empty binding-name set (a side-effect-only
one) is never flagged: deleting it from the record list leaves the
resolver's output unchanged, for every usage set and text. -/
theorem c3_side_effect_never_flagged (pre post : List ImportInfo) (i : ImportInfo)
    (hside : i.importedNames = []) (used : UsageSet) (text : Text) :
    filterUnusedImports (pre ++ i :: post) used text =
      filterUnusedImports (pre ++ post) used text := by
  rw [filterUnusedImports_eq_filterMap, filterUnusedImports_eq_filterMap,
      List.filterMap_append, List.filterMap_append, List.filterMap_cons]
  have hni : ¬ flagRecord i used := fun hf => hf.1 hside
  rw [if_neg hni]

/-- C3 witness: a concrete side-effect-only record surrounded by flagged
records contributes nothing. -/
theorem c3_witness :
    (⟨[], 30, 52⟩ : ImportInfo).importedNames = [] ∧
    filterUnusedImports [⟨["React"], 0, 29⟩, ⟨[], 30, 52⟩] [] ['a'] =
      filterUnusedImports [⟨["React"], 0, 29⟩] [] ['a'] :=
  ⟨by decide, c3_side_effect_never_flagged [⟨["React"], 0, 29⟩] [] ⟨[], 30, 52⟩ (by decide) [] ['a']⟩

/-- C10: the resolver is antitone in the usage set: if `u ⊆ u'`, the
findings against `u'` form a sublist of the findings against `u` — each
record flagged against the larger set is flagged against the smaller one,
so enlarging the usage set can only remove findings. -/
theorem c10_resolver_antitone (imports : List ImportInfo) (u u' : UsageSet) (text : Text)
    (hsub : ∀ x ∈ u, x ∈ u') :
    (filterUnusedImports imports u' text).Sublist (filterUnusedImports imports u text) := by
  rw [filterUnusedImports_eq_filterMap, filterUnusedImports_eq_filterMap]
  induction imports with
  | nil => simp
  | cons i rest ih =>
    rw [List.filterMap_cons, List.filterMap_cons]
    by_cases h' : flagRecord i u'
    · have h : flagRecord i u := ⟨h'.1, fun n hn hmem => h'.2 n hn (hsub n hmem)⟩
      rw [if_pos h', if_pos h]
      exact ih.cons₂ _
    · rw [if_neg h']
      by_cases h : flagRecord i u
      · rw [if_pos h]; exact ih.cons _
      · rw [if_neg h]; exact ih

/-- C10 witness: a concrete record flagged against `[]` but not against
`["React"]`. -/
theorem c10_witness :
    (∀ x ∈ ([] : UsageSet), x ∈ (["React"] : UsageSet)) ∧
    (filterUnusedImports [⟨["React"], 0, 29⟩] ["React"] []).Sublist
      (filterUnusedImports [⟨["React"], 0, 29⟩] [] []) :=
  ⟨by simp, c10_resolver_antitone [⟨["React"], 0, 29⟩] [] ["React"] [] (by simp)⟩

/-- C9: a document whose language id is not one of the four supported kinds
makes the command report `unsupportedFileKind` and leave the text
unchanged. -/
theorem c9_unsupported_file_kind (languageId : String) (text : Text)
    (h : languageId ∉ ["javascript", "typescript", "javascriptreact", "typescriptreact"]) :
    removeUnusedImportsHandler languageId text = (.unsupportedFileKind, text) := by
  have hb : ¬ (isSupportedFile languageId = true) := by
    simp only [isSupportedFile]
    intro hc
    exact h (List.elem_iff.mp hc)
  unfold removeUnusedImportsHandler
  rw [if_pos hb]

/-- C9 witness: the handler on a Python document is a no-op report. -/
theorem c9_witness :
    ("python" : String) ∉ ["javascript", "typescript", "javascriptreact", "typescriptreact"] ∧
    removeUnusedImportsHandler "python" ['a', '\n'] = (.unsupportedFileKind, ['a', '\n']) :=
  ⟨by decide, c9_unsupported_file_kind "python" ['a', '\n'] (by decide)⟩

/-- C8 counterexample: for the flagged aliased import
`import { useState as st } from "m"` the code's display name is the
comma-join of the doubled alias set, `"st, useState"`, not the single
declared name `"st"` the claim requires. -/
theorem c8_counterexample :
    (filterUnusedImports
        [⟨importedNamesOfClause (some ⟨none, some (.named [⟨"st", some "useState"⟩])⟩), 0, 30⟩]
        [] []).map (fun u => u.importName) = ["st, useState"] ∧
    ("st, useState" : String) ≠ "st" := by decide

/-- C8 (amended): every finding's display-name string is the comma-join of
its record's `importedNames` in collection order — the same doubled list
used for the usage check, in which an aliased specifier contributes the
local name immediately followed by the original name (not a single name). -/
theorem c8_display_names_amended (imports : List ImportInfo) (used : UsageSet) (text : Text)
    (dflt : Option String) (els : List ImportSpecifier) (el : ImportSpecifier) (orig : String)
    (hel : el ∈ els) (horig : el.propertyName = some orig) :
    (∀ u ∈ filterUnusedImports imports used text,
        ∃ i ∈ imports, u = mkFinding text i ∧
          u.importName = String.intercalate ", " i.importedNames) ∧
    [el.name, orig] <:+: importedNamesOfClause (some ⟨dflt, some (.named els)⟩) := by
  constructor
  · intro u hu
    rcases mem_filterUnused_elim imports used text u hu with ⟨i, hi, _, rfl⟩
    exact ⟨i, hi, rfl, rfl⟩
  · rcases List.append_of_mem hel with ⟨s, t, rfl⟩
    refine ⟨(match dflt with | some n => [n] | none => []) ++
        s.flatMap (fun e =>
          e.name :: (match e.propertyName with | some p => [p] | none => [])),
      t.flatMap (fun e =>
          e.name :: (match e.propertyName with | some p => [p] | none => [])), ?_⟩
    simp [importedNamesOfClause, horig]

/-- C8 witness: the amended statement at the aliased specifier
`useState as st`. -/
theorem c8_witness :
    (⟨"st", some "useState"⟩ : ImportSpecifier) ∈ [(⟨"st", some "useState"⟩ : ImportSpecifier)] ∧
    (⟨"st", some "useState"⟩ : ImportSpecifier).propertyName = some "useState" ∧
    ((∀ u ∈ filterUnusedImports [⟨["st", "useState"], 0, 30⟩] [] [],
        ∃ i ∈ [(⟨["st", "useState"], 0, 30⟩ : ImportInfo)], u = mkFinding [] i ∧
          u.importName = String.intercalate ", " i.importedNames) ∧
      ["st", "useState"] <:+:
        importedNamesOfClause (some ⟨none, some (.named [⟨"st", some "useState"⟩])⟩)) :=
  ⟨by decide, by decide,
    c8_display_names_amended [⟨["st", "useState"], 0, 30⟩] [] [] none
      [⟨"st", some "useState"⟩] ⟨"st", some "useState"⟩ "useState" (by decide) (by decide)⟩

/-- C4: for an aliased named-import specifier `original as local` the
extractor records both the original and the local name among the import
declaration's binding names, and a record with those binding names is
retained (no finding carries its start offset) whenever either name is in
the usage set. -/
theorem c4_alias_adds_both_names (els : List ImportSpecifier) (el : ImportSpecifier)
    (orig : String) (hel : el ∈ els) (horig : el.propertyName = some orig)
    (dflt : Option String) (s e : Nat) (children : List Node)
    (imports : List ImportInfo) (i : ImportInfo) (hi : i ∈ imports)
    (hnames : i.importedNames = importedNamesOfClause (some ⟨dflt, some (.named els)⟩))
    (hdist : imports.Pairwise (fun a b => a.start ≠ b.start))
    (used : UsageSet) (text : Text)
    (hused : el.name ∈ used ∨ orig ∈ used) :
    (collectImports (.importDecl (some ⟨dflt, some (.named els)⟩) s e children)).head? =
      some ⟨importedNamesOfClause (some ⟨dflt, some (.named els)⟩), s, e⟩ ∧
    el.name ∈ i.importedNames ∧ orig ∈ i.importedNames ∧
    ∀ u ∈ filterUnusedImports imports used text, u.start ≠ i.start := by
  have hmemName : el.name ∈ i.importedNames := by
    rw [hnames]
    simp only [importedNamesOfClause, List.mem_append]
    right
    exact List.mem_flatMap.mpr ⟨el, hel, List.mem_cons_self _ _⟩
  have hmemOrig : orig ∈ i.importedNames := by
    rw [hnames]
    simp only [importedNamesOfClause, List.mem_append]
    right
    refine List.mem_flatMap.mpr ⟨el, hel, ?_⟩
    rw [horig]
    exact List.mem_cons_of_mem _ (List.mem_cons_self _ _)
  have hnf : ¬ flagRecord i used := by
    intro hf
    rcases hused with h | h
    · exact hf.2 el.name hmemName h
    · exact hf.2 orig hmemOrig h
  exact ⟨by rw [collectImports]; rfl, hmemName, hmemOrig,
    no_finding_of_not_flagged imports i used text hi hdist hnf⟩

/-- C4 witness: `import { useState as st } from "m"` with `st` used. -/
theorem c4_witness :
    (⟨"st", some "useState"⟩ : ImportSpecifier) ∈ [(⟨"st", some "useState"⟩ : ImportSpecifier)] ∧
    (⟨["st", "useState"], 0, 30⟩ : ImportInfo) ∈ [(⟨["st", "useState"], 0, 30⟩ : ImportInfo)] ∧
    (("st" : String) ∈ (["st"] : UsageSet) ∨ ("useState" : String) ∈ (["st"] : UsageSet)) ∧
    ((collectImports (.importDecl (some ⟨none, some (.named [⟨"st", some "useState"⟩])⟩)
        0 30 [])).head? =
      some ⟨importedNamesOfClause (some ⟨none, some (.named [⟨"st", some "useState"⟩])⟩), 0, 30⟩ ∧
     ("st" : String) ∈ (⟨["st", "useState"], 0, 30⟩ : ImportInfo).importedNames ∧
     ("useState" : String) ∈ (⟨["st", "useState"], 0, 30⟩ : ImportInfo).importedNames ∧
     ∀ u ∈ filterUnusedImports [⟨["st", "useState"], 0, 30⟩] ["st"] [], u.start ≠ 0) :=
  ⟨by decide, by decide, by decide,
    c4_alias_adds_both_names [⟨"st", some "useState"⟩] ⟨"st", some "useState"⟩ "useState"
      (by decide) (by decide) none 0 30 [] [⟨["st", "useState"], 0, 30⟩]
      ⟨["st", "useState"], 0, 30⟩ (by decide) (by decide) (by decide) ["st"] []
      (Or.inl (by decide))⟩

/-- C5: identifiers inside import-statement subtrees never count as usage
(the collector returns nothing on an import declaration), and a record with
the binding names of a namespace import `import * as x from "m"` produces a
finding with its start offset if and only if `x` is not in the usage set
collected outside import statements — i.e. the statement is retained iff
`x` appears somewhere outside import statements. -/
theorem c5_namespace_retained_iff (root : Node) (text : Text) (x : String)
    (i : ImportInfo) (hi : i ∈ collectImports root)
    (hnames : i.importedNames = importedNamesOfClause (some ⟨none, some (.namespaceBinding x)⟩))
    (hdist : (collectImports root).Pairwise (fun a b => a.start ≠ b.start)) :
    (∀ (clause : Option ImportClause) (s e : Nat) (children : List Node),
        collectUsedIdentifiers (.importDecl clause s e children) = []) ∧
    ((∃ u ∈ findUnusedImports root text, u.start = i.start) ↔
      x ∉ collectUsedIdentifiers root) := by
  have hx : i.importedNames = [x] := hnames
  refine ⟨fun clause s e children => by rw [collectUsedIdentifiers], ?_⟩
  constructor
  · rintro ⟨u, hu, hst⟩
    rcases mem_filterUnused_elim _ _ _ u hu with ⟨j, hj, hfj, rfl⟩
    have hij : j = i := by
      by_contra hne
      exact start_ne_of_pairwise _ j i hdist hj hi hne hst
    subst hij
    exact hfj.2 x (by rw [hx]; exact List.mem_cons_self _ _)
  · intro hxnot
    have hf : flagRecord i (collectUsedIdentifiers root) := by
      refine ⟨by rw [hx]; exact List.cons_ne_nil _ _, fun n hn => ?_⟩
      rw [hx] at hn
      rcases List.mem_singleton.mp hn with rfl
      exact hxnot
    exact ⟨mkFinding text i, mem_filterUnused_of_flagged _ i _ text hi hf, rfl⟩

/-- C5 witness: `import * as fs from "m"` with `fs` used as `fs.readFile`
(two identifier references outside the import) is retained. -/
theorem c5_witness :
    (⟨["fs"], 0, 25⟩ : ImportInfo) ∈
      collectImports (.other [.importDecl (some ⟨none, some (.namespaceBinding "fs")⟩) 0 25 [],
        .other [.identifier "fs" [], .identifier "readFile" []]]) ∧
    ((∀ (clause : Option ImportClause) (s e : Nat) (children : List Node),
        collectUsedIdentifiers (.importDecl clause s e children) = []) ∧
     ((∃ u ∈ findUnusedImports
          (.other [.importDecl (some ⟨none, some (.namespaceBinding "fs")⟩) 0 25 [],
            .other [.identifier "fs" [], .identifier "readFile" []]]) [],
          u.start = (⟨["fs"], 0, 25⟩ : ImportInfo).start) ↔
       ("fs" : String) ∉ collectUsedIdentifiers
          (.other [.importDecl (some ⟨none, some (.namespaceBinding "fs")⟩) 0 25 [],
            .other [.identifier "fs" [], .identifier "readFile" []]]))) :=
  ⟨by decide,
    c5_namespace_retained_iff
      (.other [.importDecl (some ⟨none, some (.namespaceBinding "fs")⟩) 0 25 [],
        .other [.identifier "fs" [], .identifier "readFile" []]]) [] "fs"
      ⟨["fs"], 0, 25⟩ (by decide) (by decide) (by decide)⟩

/-- C6: an identifier used as the tag name of a JSX opening or self-closing
element is in the collector's usage set when the tag name is a plain
identifier, and a record with the binding names of a default import whose
name is in the usage set is retained (no finding carries its start
offset). -/
theorem c6_markup_tag_usage (w : String) (children children' : List Node)
    (root : Node) (text : Text) (i : ImportInfo) (hi : i ∈ collectImports root)
    (hnames : i.importedNames = importedNamesOfClause (some ⟨some w, none⟩))
    (hdist : (collectImports root).Pairwise (fun a b => a.start ≠ b.start))
    (hused : w ∈ collectUsedIdentifiers root) :
    w ∈ collectUsedIdentifiers (.jsxSelfClosing (.ident w) children) ∧
    w ∈ collectUsedIdentifiers (.jsxOpening (.ident w) children') ∧
    ∀ u ∈ findUnusedImports root text, u.start ≠ i.start := by
  have hw : i.importedNames = [w] := hnames
  have hnf : ¬ flagRecord i (collectUsedIdentifiers root) := by
    intro hf
    exact hf.2 w (by rw [hw]; exact List.mem_cons_self _ _) hused
  refine ⟨?_, ?_, no_finding_of_not_flagged _ i _ text hi hdist hnf⟩
  · rw [collectUsedIdentifiers]
    exact List.mem_append_left _ (List.mem_singleton.mpr rfl)
  · rw [collectUsedIdentifiers]
    exact List.mem_append_left _ (List.mem_singleton.mpr rfl)

/-- C6 witness: `import Widget from "m"` used only as the tag of
`<Widget />` is retained. -/
theorem c6_witness :
    (⟨["Widget"], 0, 24⟩ : ImportInfo) ∈
      collectImports (.other [.importDecl (some ⟨some "Widget", none⟩) 0 24 [],
        .jsxSelfClosing (.ident "Widget") []]) ∧
    ("Widget" : String) ∈ collectUsedIdentifiers
      (.other [.importDecl (some ⟨some "Widget", none⟩) 0 24 [],
        .jsxSelfClosing (.ident "Widget") []]) ∧
    (("Widget" : String) ∈ collectUsedIdentifiers (.jsxSelfClosing (.ident "Widget") []) ∧
     ("Widget" : String) ∈ collectUsedIdentifiers (.jsxOpening (.ident "Widget") []) ∧
     ∀ u ∈ findUnusedImports
        (.other [.importDecl (some ⟨some "Widget", none⟩) 0 24 [],
          .jsxSelfClosing (.ident "Widget") []]) [],
        u.start ≠ (⟨["Widget"], 0, 24⟩ : ImportInfo).start) :=
  ⟨by decide, by decide,
    c6_markup_tag_usage "Widget" [] []
      (.other [.importDecl (some ⟨some "Widget", none⟩) 0 24 [],
        .jsxSelfClosing (.ident "Widget") []]) []
      ⟨["Widget"], 0, 24⟩ (by decide) (by decide) (by decide) (by decide)⟩

/-! ## Helper lemmas about lines and offsets -/

theorem offsetOfLine_zero (ls : List Text) : offsetOfLine ls 0 = 0 := rfl

theorem offsetOfLine_nil (k : Nat) : offsetOfLine [] k = 0 := by
  simp [offsetOfLine]

theorem offsetOfLine_cons_succ (l : Text) (ls : List Text) (k : Nat) :
    offsetOfLine (l :: ls) (k + 1) = l.length + offsetOfLine ls k := by
  simp [offsetOfLine, List.take_succ_cons]

theorem take_offset_flatten (L : List Text) (k : Nat) :
    L.flatten.take (offsetOfLine L k) = (L.take k).flatten := by
  induction L generalizing k with
  | nil => simp [offsetOfLine_nil]
  | cons l ls ih =>
    cases k with
    | zero => simp [offsetOfLine_zero]
    | succ k =>
      rw [offsetOfLine_cons_succ, List.flatten_cons, List.take_append, ih,
        List.take_succ_cons, List.flatten_cons]

theorem drop_offset_flatten (L : List Text) (k : Nat) :
    L.flatten.drop (offsetOfLine L k) = (L.drop k).flatten := by
  induction L generalizing k with
  | nil => simp [offsetOfLine_nil]
  | cons l ls ih =>
    cases k with
    | zero => simp [offsetOfLine_zero]
    | succ k =>
      rw [offsetOfLine_cons_succ, List.flatten_cons, List.drop_append, ih,
        List.drop_succ_cons]

theorem deleteRange_offset_eraseIdx (L : List Text) (n : Nat) :
    deleteRange L.flatten (offsetOfLine L n, offsetOfLine L (n + 1)) = (L.eraseIdx n).flatten := by
  show L.flatten.take (offsetOfLine L n) ++ L.flatten.drop (offsetOfLine L (n + 1)) = _
  rw [take_offset_flatten, drop_offset_flatten, List.eraseIdx_eq_take_drop_succ,
    List.flatten_append (L.take n) (L.drop (n + 1))]

theorem offsetOfLine_eraseIdx (L : List Text) (n m : Nat) (hm : m ≤ n) :
    offsetOfLine (L.eraseIdx n) m = offsetOfLine L m := by
  induction L generalizing n m with
  | nil => simp
  | cons l ls ih =>
    cases n with
    | zero =>
      have : m = 0 := Nat.le_zero.mp hm
      subst this
      rw [offsetOfLine_zero, offsetOfLine_zero]
    | succ n =>
      rw [List.eraseIdx_cons_succ]
      cases m with
      | zero => rw [offsetOfLine_zero, offsetOfLine_zero]
      | succ m =>
        rw [offsetOfLine_cons_succ, offsetOfLine_cons_succ,
          ih n m (Nat.le_of_succ_le_succ hm)]

theorem keepLines_congr (L : List Text) (p q : Nat → Bool) (h : ∀ k, p k = q k) :
    keepLines L p = keepLines L q := by
  have : p = q := funext h
  rw [this]

theorem keepLines_false (L : List Text) : keepLines L (fun _ => false) = L := by
  induction L with
  | nil => rfl
  | cons l ls ih =>
    rw [keepLines]
    simp only [Bool.false_eq_true, if_false]
    rw [ih]

theorem keepLines_eraseIdx (L : List Text) (n : Nat) (p : Nat → Bool) :
    keepLines (L.eraseIdx n) p =
      keepLines L (fun i => if i = n then true else if i < n then p i else p (i - 1)) := by
  induction L generalizing n p with
  | nil => cases n <;> rfl
  | cons l ls ih =>
    cases n with
    | zero =>
      rw [List.eraseIdx_cons_zero]
      conv_rhs => rw [keepLines]
      rw [if_pos (by simp)]
      exact keepLines_congr ls _ _ (fun k => by simp)
    | succ n =>
      rw [List.eraseIdx_cons_succ, keepLines]
      conv_rhs => rw [keepLines]
      have hmain : keepLines (ls.eraseIdx n) (fun k => p (k + 1)) =
          keepLines ls (fun k =>
            if k + 1 = n + 1 then true
            else if k + 1 < n + 1 then p (k + 1) else p (k + 1 - 1)) := by
        rw [ih n (fun k => p (k + 1))]
        refine keepLines_congr ls _ _ (fun k => ?_)
        by_cases hk : k = n
        · rw [if_pos hk, if_pos (show k + 1 = n + 1 by omega)]
        · rw [if_neg hk, if_neg (show ¬ k + 1 = n + 1 by omega)]
          by_cases hk2 : k < n
          · rw [if_pos hk2, if_pos (show k + 1 < n + 1 by omega)]
          · rw [if_neg hk2, if_neg (show ¬ k + 1 < n + 1 by omega)]
            show p (k - 1 + 1) = p (k + 1 - 1)
            congr 1
            omega
      have h0 : (if (0 : Nat) = n + 1 then true else if 0 < n + 1 then p 0 else p (0 - 1))
          = p 0 := by simp
      rw [h0, hmain]

theorem foldl_deleteRange_desc (ks : List Nat) (L : List Text)
    (hdesc : ks.Pairwise (fun a b => b < a))
    (hval : ∀ k ∈ ks, k < L.length) :
    (ks.map (fun k => (offsetOfLine L k, offsetOfLine L (k + 1)))).foldl deleteRange L.flatten
      = (keepLines L (fun i => ks.contains i)).flatten := by
  induction ks generalizing L with
  | nil =>
    simp only [List.map_nil, List.foldl_nil]
    rw [keepLines_congr L (fun i => List.contains [] i) (fun _ => false) (fun k => rfl),
      keepLines_false]
  | cons k₀ rest ih =>
    rw [List.map_cons, List.foldl_cons, deleteRange_offset_eraseIdx]
    have hk₀ : k₀ < L.length := hval k₀ (List.mem_cons_self _ _)
    have hpc := List.pairwise_cons.mp hdesc
    have hlt : ∀ k ∈ rest, k < k₀ := hpc.1
    have hmapeq : rest.map (fun k => (offsetOfLine L k, offsetOfLine L (k + 1)))
        = rest.map (fun k => (offsetOfLine (L.eraseIdx k₀) k, offsetOfLine (L.eraseIdx k₀) (k + 1))) := by
      refine List.map_congr_left (fun k hk => ?_)
      rw [offsetOfLine_eraseIdx L k₀ k (Nat.le_of_lt (hlt k hk)),
        offsetOfLine_eraseIdx L k₀ (k + 1) (hlt k hk)]
    rw [hmapeq, ih (L.eraseIdx k₀) hpc.2 (fun k hk => by
      rw [List.length_eraseIdx_of_lt hk₀]
      have := hlt k hk
      omega)]
    rw [keepLines_eraseIdx L k₀ (fun i => rest.contains i)]
    congr 1
    refine keepLines_congr L _ _ (fun i => ?_)
    by_cases hik : i = k₀
    · subst hik
      rw [if_pos rfl]
      simp [List.contains_cons]
    · by_cases hil : i < k₀
      · rw [if_neg hik, if_pos hil, List.contains_cons, beq_false_of_ne hik, Bool.false_or]
      · rw [if_neg hik, if_neg hil]
        have hti : rest.contains i = false := by
          cases hc : rest.contains i with
          | false => rfl
          | true => exact absurd (hlt _ (List.elem_iff.mp hc)) (by omega)
        have ht1 : rest.contains (i - 1) = false := by
          cases hc : rest.contains (i - 1) with
          | false => rfl
          | true => exact absurd (hlt _ (List.elem_iff.mp hc)) (by omega)
        rw [ht1, List.contains_cons, beq_false_of_ne hik, Bool.false_or, hti]

/-! ## Helper lemmas about the line decomposition -/

theorem flatten_splitLinesKB (t : Text) : (splitLinesKB t).flatten = t := by
  induction t with
  | nil => rfl
  | cons c cs ih =>
    rw [splitLinesKB]
    by_cases hc : c = '\n'
    · rw [if_pos hc, List.flatten_cons, ih]
      rfl
    · rw [if_neg hc]
      cases hsp : splitLinesKB cs with
      | nil =>
        have hcs : cs = [] := by rw [← ih, hsp]; rfl
        subst hcs
        rfl
      | cons l ls =>
        rw [← ih, hsp]
        rfl

theorem splitLinesKB_cons (c : Char) (cs : Text) :
    ∃ l ls, splitLinesKB (c :: cs) = l :: ls ∧ l ≠ [] := by
  rw [splitLinesKB]
  by_cases hc : c = '\n'
  · rw [if_pos hc]
    exact ⟨[c], _, rfl, List.cons_ne_nil _ _⟩
  · rw [if_neg hc]
    cases h : splitLinesKB cs with
    | nil => exact ⟨[c], [], rfl, List.cons_ne_nil _ _⟩
    | cons x xs => exact ⟨c :: x, xs, rfl, List.cons_ne_nil _ _⟩

theorem splitLinesKB_ne_nil (t : Text) : ∀ l ∈ splitLinesKB t, l ≠ [] := by
  induction t with
  | nil => intro l hl; cases hl
  | cons c cs ih =>
    intro l hl
    rw [splitLinesKB] at hl
    by_cases hc : c = '\n'
    · rw [if_pos hc] at hl
      rcases List.mem_cons.mp hl with rfl | hl
      · exact List.cons_ne_nil _ _
      · exact ih l hl
    · rw [if_neg hc] at hl
      cases h : splitLinesKB cs with
      | nil =>
        rw [h] at hl
        rcases List.mem_singleton.mp hl with rfl
        exact List.cons_ne_nil _ _
      | cons x xs =>
        rw [h] at hl
        rcases List.mem_cons.mp hl with rfl | hl
        · exact List.cons_ne_nil _ _
        · exact ih l (by rw [h]; exact List.mem_cons_of_mem x hl)

theorem goodLines_splitLinesKB (t : Text) : GoodLines (splitLinesKB t) := by
  induction t with
  | nil => exact .nil
  | cons c cs ih =>
    rw [splitLinesKB]
    by_cases hc : c = '\n'
    · rw [if_pos hc]
      subst hc
      cases h : splitLinesKB cs with
      | nil => exact .single _ (Or.inl ⟨[], rfl, by simp⟩)
      | cons x xs => exact .cons _ x xs ⟨[], rfl, by simp⟩ (h ▸ ih)
    · rw [if_neg hc]
      cases h : splitLinesKB cs with
      | nil => exact .single _ (Or.inr ⟨List.cons_ne_nil _ _, by simp [Ne.symm hc]⟩)
      | cons x xs =>
        have ihx : GoodLines (x :: xs) := h ▸ ih
        cases ihx with
        | single l hl =>
          refine .single _ ?_
          rcases hl with ⟨s, hs, hns⟩ | ⟨hne, hnm⟩
          · exact Or.inl ⟨c :: s, by rw [hs]; rfl, by simp [Ne.symm hc, hns]⟩
          · exact Or.inr ⟨List.cons_ne_nil _ _, by simp [Ne.symm hc, hnm]⟩
        | cons l l₂ ls hcl hrest =>
          refine .cons _ _ _ ?_ hrest
          rcases hcl with ⟨s, hs, hns⟩
          exact ⟨c :: s, by rw [hs]; rfl, by simp [Ne.symm hc, hns]⟩

theorem splitLinesKB_append_closed (s : Text) (hns : '\n' ∉ s) (rest : Text) :
    splitLinesKB (s ++ '\n' :: rest) = (s ++ ['\n']) :: splitLinesKB rest := by
  induction s with
  | nil =>
    rw [List.nil_append, splitLinesKB, if_pos rfl]
    rfl
  | cons c cs ih =>
    have hc : ¬ c = '\n' := fun h => hns (h ▸ List.mem_cons_self _ _)
    rw [List.cons_append, splitLinesKB, if_neg hc,
      ih (fun h => hns (List.mem_cons_of_mem _ h))]
    rfl

theorem splitLinesKB_no_newline (l : Text) (hne : l ≠ []) (hnm : '\n' ∉ l) :
    splitLinesKB l = [l] := by
  induction l with
  | nil => exact absurd rfl hne
  | cons c cs ih =>
    have hc : ¬ c = '\n' := fun h => hnm (h ▸ List.mem_cons_self _ _)
    rw [splitLinesKB, if_neg hc]
    by_cases hcs : cs = []
    · subst hcs
      rfl
    · rw [ih hcs (fun h => hnm (List.mem_cons_of_mem _ h))]

theorem splitLinesKB_flatten_of_good (L : List Text) (hL : GoodLines L) :
    splitLinesKB L.flatten = L := by
  induction hL with
  | nil => rfl
  | single l hl =>
    rcases hl with ⟨s, hs, hns⟩ | ⟨hne, hnm⟩
    · subst hs
      have hfl : ([s ++ ['\n']] : List Text).flatten = s ++ '\n' :: [] := by simp
      rw [hfl, splitLinesKB_append_closed s hns []]
      rfl
    · have hfl : ([l] : List Text).flatten = l := by simp
      rw [hfl, splitLinesKB_no_newline l hne hnm]
  | cons l l₂ ls hcl hrest ih =>
    rcases hcl with ⟨s, hs, hns⟩
    subst hs
    rw [List.flatten_cons, List.append_assoc, List.singleton_append,
      splitLinesKB_append_closed s hns _, ih]

/-! ## Helper lemmas locating an offset's line -/

theorem lineIndexAt_zero (t : Text) : lineIndexAt t 0 = 0 := rfl

theorem lineIndexAt_cons_newline (cs : Text) (off : Nat) :
    lineIndexAt ('\n' :: cs) (off + 1) = lineIndexAt cs off + 1 := by
  simp [lineIndexAt, List.take_succ_cons, List.filter_cons]

theorem lineIndexAt_cons_other (c : Char) (hc : ¬ c = '\n') (cs : Text) (off : Nat) :
    lineIndexAt (c :: cs) (off + 1) = lineIndexAt cs off := by
  simp [lineIndexAt, List.take_succ_cons, List.filter_cons, hc]

theorem offsetOfLine_cons_head_succ (c : Char) (x : Text) (xs : List Text) (m : Nat) :
    offsetOfLine ((c :: x) :: xs) (m + 1) = offsetOfLine (x :: xs) (m + 1) + 1 := by
  rw [offsetOfLine_cons_succ, offsetOfLine_cons_succ, List.length_cons]
  omega

theorem lineIndexAt_bounds (t : Text) (off : Nat) (hoff : off < t.length) :
    lineIndexAt t off < (splitLinesKB t).length ∧
    offsetOfLine (splitLinesKB t) (lineIndexAt t off) ≤ off ∧
    off < offsetOfLine (splitLinesKB t) (lineIndexAt t off + 1) := by
  induction t generalizing off with
  | nil => simp at hoff
  | cons c cs ih =>
    cases off with
    | zero =>
      rw [lineIndexAt_zero]
      rcases splitLinesKB_cons c cs with ⟨l, ls, hsp, hne⟩
      rw [hsp]
      refine ⟨Nat.succ_pos _, Nat.le_refl 0, ?_⟩
      rw [offsetOfLine_cons_succ, offsetOfLine_zero]
      have := List.length_pos.mpr hne
      omega
    | succ off =>
      have hoff' : off < cs.length := by
        rw [List.length_cons] at hoff
        omega
      rcases ih off hoff' with ⟨ih1, ih2, ih3⟩
      by_cases hc : c = '\n'
      · subst hc
        rw [lineIndexAt_cons_newline]
        have hsp : splitLinesKB ('\n' :: cs) = ['\n'] :: splitLinesKB cs := by
          rw [splitLinesKB, if_pos rfl]
        rw [hsp]
        refine ⟨by simp [List.length_cons]; omega, ?_, ?_⟩
        · rw [offsetOfLine_cons_succ]
          simp only [List.length_cons, List.length_nil]
          omega
        · rw [offsetOfLine_cons_succ]
          simp only [List.length_cons, List.length_nil]
          omega
      · rw [lineIndexAt_cons_other c hc]
        have hcs : cs ≠ [] := by
          intro h
          rw [h] at hoff'
          simp at hoff'
        rcases List.exists_cons_of_ne_nil hcs with ⟨c₂, cs₂, rfl⟩
        rcases splitLinesKB_cons c₂ cs₂ with ⟨x, xs, hsp, hnex⟩
        have hsp' : splitLinesKB (c :: c₂ :: cs₂) = (c :: x) :: xs := by
          rw [splitLinesKB, if_neg hc, hsp]
        rw [hsp']
        rw [hsp] at ih1 ih2 ih3
        refine ⟨by simpa using ih1, ?_, ?_⟩
        · cases hk : lineIndexAt (c₂ :: cs₂) off with
          | zero => rw [offsetOfLine_zero]; omega
          | succ k =>
            rw [hk] at ih2
            rw [offsetOfLine_cons_head_succ]
            rw [offsetOfLine_cons_succ] at ih2 ⊢
            omega
        · rw [offsetOfLine_cons_head_succ]
          omega

theorem offsetOfLine_take (L : List Text) (k m : Nat) (hkm : k ≤ m) :
    offsetOfLine (L.take m) k = offsetOfLine L k := by
  unfold offsetOfLine
  rw [List.map_take List.length L m, List.take_take, Nat.min_eq_left hkm]

theorem slice_offset_eq_getD (L : List Text) (k : Nat) (hk : k < L.length) :
    (L.flatten.take (offsetOfLine L (k + 1))).drop (offsetOfLine L k) = L.getD k [] := by
  rw [take_offset_flatten, ← offsetOfLine_take L k (k + 1) (Nat.le_succ k),
    drop_offset_flatten (L.take (k + 1)) k, List.drop_take_succ_eq_cons_getElem L k hk,
    List.getD_eq_getElem L [] hk]
  simp

/-! ## Helper lemmas about the descending sort -/

theorem insertByStartDesc_of_lt (x : UnusedImport) (l : List UnusedImport)
    (h : ∀ y ∈ l, x.start < y.start) :
    insertByStartDesc x l = l ++ [x] := by
  induction l with
  | nil => rfl
  | cons y ys ih =>
    rw [insertByStartDesc, if_neg (Nat.not_le.mpr (h y (List.mem_cons_self _ _))),
      ih (fun z hz => h z (List.mem_cons_of_mem _ hz))]
    rfl

theorem sortByStartDesc_of_strictInc (l : List UnusedImport)
    (h : l.Pairwise (fun a b => a.start < b.start)) :
    sortByStartDesc l = l.reverse := by
  induction l with
  | nil => rfl
  | cons x xs ih =>
    rw [sortByStartDesc, ih (List.pairwise_cons.mp h).2,
      insertByStartDesc_of_lt x xs.reverse
        (fun y hy => (List.pairwise_cons.mp h).1 y (List.mem_reverse.mp hy)),
      List.reverse_cons]

theorem contains_reverse (l : List Nat) (a : Nat) : l.reverse.contains a = l.contains a := by
  apply Bool.coe_iff_coe.mp
  simp [List.elem_iff]

/-! ## Claim C2: the removal edit batch -/

theorem planEdit_fst_snd (text : Text) (f : UnusedImport) :
    planEdit text f =
      (offsetOfLine (splitLinesKB text) (lineIndexAt text f.start),
        offsetOfLine (splitLinesKB text) (lineIndexAt text f.start + 1)) := rfl

/-- C2 counterexample: two findings with strictly increasing start offsets
`0 < 1` inside the text `"ab\ncd\n"` lie on the same line 0.  The claim
says sequential application deletes exactly the flagged lines (here just
line 0, leaving `"cd\n"`), but the code deletes the same original-range
twice against the shrinking text and wipes the unflagged line `"cd\n"` as
well, leaving the empty text. -/
theorem c2_counterexample :
    (List.Pairwise (fun a b => a.start < b.start)
        [(⟨0, 2, "A", 1⟩ : UnusedImport), ⟨1, 2, "B", 1⟩] ∧
      ∀ f ∈ [(⟨0, 2, "A", 1⟩ : UnusedImport), ⟨1, 2, "B", 1⟩],
        f.start < ("ab\ncd\n".toList).length) ∧
    (keepLines (splitLinesKB ("ab\ncd\n".toList))
        (fun k => ([(⟨0, 2, "A", 1⟩ : UnusedImport), ⟨1, 2, "B", 1⟩].map
          (fun f => lineIndexAt ("ab\ncd\n".toList) f.start)).contains k)).flatten =
      "cd\n".toList ∧
    applyRemovalEdits ("ab\ncd\n".toList) [⟨0, 2, "A", 1⟩, ⟨1, 2, "B", 1⟩] = [] ∧
    applyRemovalEdits ("ab\ncd\n".toList) [⟨0, 2, "A", 1⟩, ⟨1, 2, "B", 1⟩] ≠
      (keepLines (splitLinesKB ("ab\ncd\n".toList))
        (fun k => ([(⟨0, 2, "A", 1⟩ : UnusedImport), ⟨1, 2, "B", 1⟩].map
          (fun f => lineIndexAt ("ab\ncd\n".toList) f.start)).contains k)).flatten := by
  refine ⟨⟨?_, ?_⟩, ?_, ?_, ?_⟩ <;> decide

/-- C2 (amended): for findings with strictly increasing start offsets that
lie inside the text *and on pairwise distinct lines*, the emitted batch is
the findings reversed — strictly descending start offsets — each planned
deletion covers the entire line containing the finding's start offset
including its trailing line terminator, and applying the deletions
sequentially against the shrinking text deletes exactly the flagged lines,
never a wrong one. -/
theorem c2_removal_edit_batch (text : Text) (findings : List UnusedImport)
    (hinc : findings.Pairwise (fun a b => a.start < b.start))
    (hlines : findings.Pairwise (fun a b => lineIndexAt text a.start < lineIndexAt text b.start))
    (hval : ∀ f ∈ findings, f.start < text.length) :
    sortByStartDesc findings = findings.reverse ∧
    (sortByStartDesc findings).Pairwise (fun a b => b.start < a.start) ∧
    (∀ f ∈ findings,
        (planEdit text f).1 ≤ f.start ∧ f.start < (planEdit text f).2 ∧
        (text.take (planEdit text f).2).drop (planEdit text f).1 =
          (splitLinesKB text).getD (lineIndexAt text f.start) []) ∧
    applyRemovalEdits text findings =
      (keepLines (splitLinesKB text)
        (fun k => (findings.map (fun f => lineIndexAt text f.start)).contains k)).flatten := by
  have hsort := sortByStartDesc_of_strictInc findings hinc
  obtain ⟨L, hL⟩ : ∃ L, splitLinesKB text = L := ⟨_, rfl⟩
  have htext : text = L.flatten := by rw [← hL, flatten_splitLinesKB]
  subst htext
  refine ⟨hsort, ?_, ?_, ?_⟩
  · rw [hsort]
    exact List.pairwise_reverse.mpr hinc
  · intro f hf
    rcases lineIndexAt_bounds L.flatten f.start (hval f hf) with ⟨h1, h2, h3⟩
    rw [hL] at h1 h2 h3
    refine ⟨?_, ?_, ?_⟩
    · rw [planEdit_fst_snd, hL]
      exact h2
    · rw [planEdit_fst_snd, hL]
      exact h3
    · rw [planEdit_fst_snd, hL]
      exact slice_offset_eq_getD L (lineIndexAt L.flatten f.start) h1
  · rw [applyRemovalEdits, hsort]
    have hplan : (findings.reverse).map (planEdit L.flatten) =
        ((findings.reverse).map (fun f => lineIndexAt L.flatten f.start)).map
          (fun k => (offsetOfLine L k, offsetOfLine L (k + 1))) := by
      rw [List.map_map]
      refine List.map_congr_left (fun f _ => ?_)
      rw [planEdit_fst_snd, hL]
      rfl
    rw [hplan]
    have hdesc : ((findings.reverse).map (fun f => lineIndexAt L.flatten f.start)).Pairwise
        (fun a b => b < a) := by
      rw [List.map_reverse]
      refine List.pairwise_reverse.mpr ?_
      exact List.pairwise_map.mpr hlines
    have hvalks : ∀ k ∈ (findings.reverse).map (fun f => lineIndexAt L.flatten f.start),
        k < L.length := by
      intro k hk
      rcases List.mem_map.mp hk with ⟨f, hf, rfl⟩
      have hf' : f ∈ findings := List.mem_reverse.mp hf
      have := (lineIndexAt_bounds L.flatten f.start (hval f hf')).1
      rw [hL] at this
      exact this
    rw [foldl_deleteRange_desc _ L hdesc hvalks, hL]
    congr 1
    refine keepLines_congr L _ _ (fun k => ?_)
    rw [List.map_reverse, contains_reverse]

/-- C2 witness: two findings on distinct lines of `"ab\ncd\n"`. -/
theorem c2_witness :
    (List.Pairwise (fun a b => a.start < b.start)
        [(⟨0, 2, "A", 1⟩ : UnusedImport), ⟨3, 5, "B", 2⟩] ∧
      List.Pairwise (fun a b =>
          lineIndexAt ("ab\ncd\n".toList) a.start < lineIndexAt ("ab\ncd\n".toList) b.start)
        [(⟨0, 2, "A", 1⟩ : UnusedImport), ⟨3, 5, "B", 2⟩] ∧
      ∀ f ∈ [(⟨0, 2, "A", 1⟩ : UnusedImport), ⟨3, 5, "B", 2⟩],
        f.start < ("ab\ncd\n".toList).length) ∧
    (sortByStartDesc [⟨0, 2, "A", 1⟩, ⟨3, 5, "B", 2⟩] =
        ([(⟨0, 2, "A", 1⟩ : UnusedImport), ⟨3, 5, "B", 2⟩]).reverse ∧
      (sortByStartDesc [⟨0, 2, "A", 1⟩, ⟨3, 5, "B", 2⟩]).Pairwise
        (fun a b => b.start < a.start) ∧
      (∀ f ∈ [(⟨0, 2, "A", 1⟩ : UnusedImport), ⟨3, 5, "B", 2⟩],
          (planEdit ("ab\ncd\n".toList) f).1 ≤ f.start ∧
          f.start < (planEdit ("ab\ncd\n".toList) f).2 ∧
          (("ab\ncd\n".toList).take (planEdit ("ab\ncd\n".toList) f).2).drop
              (planEdit ("ab\ncd\n".toList) f).1 =
            (splitLinesKB ("ab\ncd\n".toList)).getD
              (lineIndexAt ("ab\ncd\n".toList) f.start) []) ∧
      applyRemovalEdits ("ab\ncd\n".toList) [⟨0, 2, "A", 1⟩, ⟨3, 5, "B", 2⟩] =
        (keepLines (splitLinesKB ("ab\ncd\n".toList))
          (fun k => ([(⟨0, 2, "A", 1⟩ : UnusedImport), ⟨3, 5, "B", 2⟩].map
            (fun f => lineIndexAt ("ab\ncd\n".toList) f.start)).contains k)).flatten) :=
  ⟨⟨by decide, by decide, by decide⟩,
    c2_removal_edit_batch ("ab\ncd\n".toList) [⟨0, 2, "A", 1⟩, ⟨3, 5, "B", 2⟩]
      (by decide) (by decide) (by decide)⟩

/-! ## Helper lemmas: the modelled parser seen line by line -/

theorem collectImportsList_map_ident (ss : List String) :
    collectImportsList (ss.map (fun s => Node.identifier s [])) = [] := by
  induction ss with
  | nil => rfl
  | cons s ss ih =>
    rw [List.map_cons, collectImportsList, collectImports, collectImportsList, ih]
    rfl

theorem collectImportsList_buildNodes (off : Nat) (ls : List Text) :
    collectImportsList (buildNodes off ls) = importsOfLines off ls := by
  induction ls generalizing off with
  | nil => rfl
  | cons l ls ih =>
    rw [buildNodes, collectImportsList, importsOfLines, ih (off + l.length), lineNode]
    cases hp : parseImportLine l with
    | none =>
      simp only []
      rw [collectImports, collectImportsList_map_ident]
    | some clause =>
      simp only []
      rw [collectImports, collectImportsList]

theorem collectImports_parseText (t : Text) :
    collectImports (parseText t) = importsOfLines 0 (splitLinesKB t) := by
  rw [parseText, collectImports, collectImportsList_buildNodes]

theorem collectUsedIdentifiersList_map_ident (ss : List String) :
    collectUsedIdentifiersList (ss.map (fun s => Node.identifier s [])) = ss := by
  induction ss with
  | nil => rfl
  | cons s ss ih =>
    rw [List.map_cons, collectUsedIdentifiersList, collectUsedIdentifiers,
      collectUsedIdentifiersList, ih]
    rfl

theorem collectUsedIdentifiersList_buildNodes (off : Nat) (ls : List Text) :
    collectUsedIdentifiersList (buildNodes off ls) = usedOfLines ls := by
  induction ls generalizing off with
  | nil => rfl
  | cons l ls ih =>
    rw [buildNodes, collectUsedIdentifiersList, ih (off + l.length), lineNode]
    show _ = usedOfLine l ++ usedOfLines ls
    rw [usedOfLine]
    cases hp : parseImportLine l with
    | none =>
      simp only []
      rw [collectUsedIdentifiers, collectUsedIdentifiersList_map_ident]
    | some clause =>
      simp only []
      rw [collectUsedIdentifiers]

theorem collectUsedIdentifiers_parseText (t : Text) :
    collectUsedIdentifiers (parseText t) = usedOfLines (splitLinesKB t) := by
  rw [parseText, collectUsedIdentifiers, collectUsedIdentifiersList_buildNodes]

/-! ## Helper lemmas: flagged lines and their findings -/

theorem flagLineB_none (used : UsageSet) (l : Text) (hp : parseImportLine l = none) :
    flagLineB used l = false := by
  rw [flagLineB, hp]

theorem flagLineB_some (used : UsageSet) (l : Text) (clause : Option ImportClause)
    (hp : parseImportLine l = some clause) (off e : Nat) :
    flagLineB used l = decide (flagRecord ⟨importedNamesOfClause clause, off, e⟩ used) := by
  rw [flagLineB, hp]
  rfl

theorem filterUnused_importsOfLines (used : UsageSet) (text : Text) (off : Nat)
    (ls : List Text) :
    filterUnusedImports (importsOfLines off ls) used text = findingsOfLines used text off ls := by
  induction ls generalizing off with
  | nil => rfl
  | cons l ls ih =>
    rw [importsOfLines, findingsOfLines, filterUnusedImports_eq_filterMap,
      List.filterMap_append,
      ← filterUnusedImports_eq_filterMap (importsOfLines (off + l.length) ls) used text,
      ih (off + l.length)]
    congr 1
    cases hp : parseImportLine l with
    | none => rfl
    | some clause =>
      simp only [List.filterMap_cons]
      by_cases hf : flagRecord ⟨importedNamesOfClause clause, off, off + l.length⟩ used
      · rw [if_pos hf, if_pos hf]
        rfl
      · rw [if_neg hf, if_neg hf]
        rfl

theorem findingsOfLines_none (used : UsageSet) (text : Text) (off : Nat) (l : Text)
    (ls : List Text) (hp : parseImportLine l = none) :
    findingsOfLines used text off (l :: ls) = findingsOfLines used text (off + l.length) ls := by
  rw [findingsOfLines, hp]
  rfl

theorem findingsOfLines_some (used : UsageSet) (text : Text) (off : Nat) (l : Text)
    (ls : List Text) (clause : Option ImportClause) (hp : parseImportLine l = some clause) :
    findingsOfLines used text off (l :: ls) =
      (if flagRecord ⟨importedNamesOfClause clause, off, off + l.length⟩ used
       then [mkFinding text ⟨importedNamesOfClause clause, off, off + l.length⟩] else []) ++
      findingsOfLines used text (off + l.length) ls := by
  rw [findingsOfLines, hp]

theorem findingsOfLines_starts (used : UsageSet) (text : Text) (off : Nat) (ls : List Text) :
    (findingsOfLines used text off ls).map (fun u => u.start) =
      (flaggedIdxs used ls).map (fun k => off + offsetOfLine ls k) := by
  induction ls generalizing off with
  | nil => rfl
  | cons l ls ih =>
    have hshift : ((flaggedIdxs used ls).map (fun k => k + 1)).map
        (fun k => off + offsetOfLine (l :: ls) k) =
        (flaggedIdxs used ls).map (fun k => off + l.length + offsetOfLine ls k) := by
      rw [List.map_map]
      refine List.map_congr_left (fun k _ => ?_)
      show off + offsetOfLine (l :: ls) (k + 1) = off + l.length + offsetOfLine ls k
      rw [offsetOfLine_cons_succ]
      omega
    cases hp : parseImportLine l with
    | none =>
      rw [findingsOfLines_none used text off l ls hp, flaggedIdxs,
        flagLineB_none used l hp, if_neg (by simp), ih (off + l.length), hshift]
    | some clause =>
      rw [findingsOfLines_some used text off l ls clause hp, flaggedIdxs,
        flagLineB_some used l clause hp off (off + l.length)]
      by_cases hf : flagRecord ⟨importedNamesOfClause clause, off, off + l.length⟩ used
      · rw [if_pos hf, if_pos (decide_eq_true hf), List.singleton_append, List.map_cons,
          ih (off + l.length), List.map_cons, hshift]
        show off :: _ = (off + offsetOfLine (l :: ls) 0) :: _
        rw [offsetOfLine_zero, Nat.add_zero]
      · rw [if_neg hf,
          if_neg (show ¬ decide (flagRecord ⟨importedNamesOfClause clause, off, off + l.length⟩ used) = true from
            by rw [decide_eq_false hf]; exact Bool.false_ne_true),
          List.nil_append, ih (off + l.length), hshift]

theorem flaggedIdxs_sorted (used : UsageSet) (ls : List Text) :
    (flaggedIdxs used ls).Pairwise (fun a b => a < b) := by
  induction ls with
  | nil => exact List.Pairwise.nil
  | cons l ls ih =>
    rw [flaggedIdxs]
    have hmap : ((flaggedIdxs used ls).map (fun k => k + 1)).Pairwise (fun a b => a < b) :=
      List.pairwise_map.mpr (ih.imp (fun h => by omega))
    by_cases hf : flagLineB used l = true
    · rw [if_pos hf]
      refine List.pairwise_cons.mpr ⟨?_, hmap⟩
      intro b hb
      rcases List.mem_map.mp hb with ⟨k, _, rfl⟩
      omega
    · rw [if_neg hf]
      exact hmap

theorem flaggedIdxs_lt_length (used : UsageSet) (ls : List Text) :
    ∀ k ∈ flaggedIdxs used ls, k < ls.length := by
  induction ls with
  | nil => intro k hk; cases hk
  | cons l ls ih =>
    intro k hk
    rw [flaggedIdxs] at hk
    rw [List.length_cons]
    by_cases hf : flagLineB used l = true
    · rw [if_pos hf] at hk
      rcases List.mem_cons.mp hk with rfl | hk
      · omega
      · rcases List.mem_map.mp hk with ⟨j, hj, rfl⟩
        have := ih j hj
        omega
    · rw [if_neg hf] at hk
      rcases List.mem_map.mp hk with ⟨j, hj, rfl⟩
      have := ih j hj
      omega

theorem offsetOfLine_strict_mono (L : List Text) (hne : ∀ l ∈ L, l ≠ []) (j k : Nat)
    (hjk : j < k) (hk : k ≤ L.length) : offsetOfLine L j < offsetOfLine L k := by
  induction L generalizing j k with
  | nil => simp at hk; omega
  | cons l ls ih =>
    cases k with
    | zero => omega
    | succ k =>
      have hl : l ≠ [] := hne l (List.mem_cons_self _ _)
      have hlpos : 0 < l.length := List.length_pos.mpr hl
      cases j with
      | zero =>
        rw [offsetOfLine_zero, offsetOfLine_cons_succ]
        omega
      | succ j =>
        rw [offsetOfLine_cons_succ, offsetOfLine_cons_succ]
        have := ih (fun x hx => hne x (List.mem_cons_of_mem _ hx)) j k (by omega)
          (by rw [List.length_cons] at hk; omega)
        omega

theorem keepLines_flaggedIdxs (used : UsageSet) (ls : List Text) :
    keepLines ls (fun k => (flaggedIdxs used ls).contains k) =
      ls.filter (fun l => ! flagLineB used l) := by
  induction ls with
  | nil => rfl
  | cons l ls ih =>
    rw [flaggedIdxs, keepLines, List.filter_cons]
    by_cases hf : flagLineB used l = true
    · rw [if_pos hf, hf]
      rw [if_pos (by simp)]
      simp only [Bool.not_true, Bool.false_eq_true, if_false]
      rw [← ih]
      refine keepLines_congr ls _ _ (fun k => ?_)
      show ((0 : Nat) :: (flaggedIdxs used ls).map (fun k => k + 1)).contains (k + 1) =
        (flaggedIdxs used ls).contains k
      simp [List.elem_iff]
    · rw [if_neg hf]
      have hfb : flagLineB used l = false := by
        cases h : flagLineB used l with
        | false => rfl
        | true => exact absurd h hf
      rw [hfb]
      rw [if_neg (by simp [List.elem_iff])]
      simp only [Bool.not_false, if_pos rfl]
      rw [← ih]
      refine congrArg (List.cons l) ?_
      refine keepLines_congr ls _ _ (fun k => ?_)
      show ((flaggedIdxs used ls).map (fun k => k + 1)).contains (k + 1) =
        (flaggedIdxs used ls).contains k
      simp [List.elem_iff]

/-! ## Helper lemmas: the second pass sees the same usage set -/

theorem importsOfLines_none (off : Nat) (l : Text) (ls : List Text)
    (hp : parseImportLine l = none) :
    importsOfLines off (l :: ls) = importsOfLines (off + l.length) ls := by
  rw [importsOfLines, hp]
  rfl

theorem importsOfLines_some (off : Nat) (l : Text) (ls : List Text)
    (clause : Option ImportClause) (hp : parseImportLine l = some clause) :
    importsOfLines off (l :: ls) =
      ⟨importedNamesOfClause clause, off, off + l.length⟩ ::
        importsOfLines (off + l.length) ls := by
  rw [importsOfLines, hp]
  rfl

theorem usedOfLines_cons (l : Text) (ls : List Text) :
    usedOfLines (l :: ls) = usedOfLine l ++ usedOfLines ls := rfl

theorem usedOfLines_filter_flagged (used : UsageSet) (ls : List Text) :
    usedOfLines (ls.filter (fun l => ! flagLineB used l)) = usedOfLines ls := by
  induction ls with
  | nil => rfl
  | cons l ls ih =>
    rw [List.filter_cons]
    cases hf : flagLineB used l with
    | false =>
      rw [Bool.not_false, if_pos rfl, usedOfLines_cons, usedOfLines_cons, ih]
    | true =>
      rw [Bool.not_true, if_neg Bool.false_ne_true, ih, usedOfLines_cons]
      have hl : usedOfLine l = [] := by
        cases hp : parseImportLine l with
        | some clause => rw [usedOfLine, hp]
        | none =>
          rw [flagLineB_none used l hp] at hf
          exact absurd hf Bool.false_ne_true
      rw [hl, List.nil_append]

theorem mem_importsOfLines (off : Nat) (ls : List Text) (i : ImportInfo)
    (hi : i ∈ importsOfLines off ls) :
    ∃ l ∈ ls, ∃ clause, parseImportLine l = some clause ∧
      i.importedNames = importedNamesOfClause clause := by
  induction ls generalizing off with
  | nil => cases hi
  | cons l ls ih =>
    cases hp : parseImportLine l with
    | none =>
      rw [importsOfLines_none off l ls hp] at hi
      rcases ih (off + l.length) hi with ⟨l', hl', hc⟩
      exact ⟨l', List.mem_cons_of_mem _ hl', hc⟩
    | some clause =>
      rw [importsOfLines_some off l ls clause hp] at hi
      rcases List.mem_cons.mp hi with rfl | hi
      · exact ⟨l, List.mem_cons_self _ _, clause, hp, rfl⟩
      · rcases ih (off + l.length) hi with ⟨l', hl', hc⟩
        exact ⟨l', List.mem_cons_of_mem _ hl', hc⟩

theorem filterUnused_eq_nil_of_none_flagged (imports : List ImportInfo) (used : UsageSet)
    (text : Text) (h : ∀ i ∈ imports, ¬ flagRecord i used) :
    filterUnusedImports imports used text = [] := by
  rw [filterUnusedImports_eq_filterMap]
  induction imports with
  | nil => rfl
  | cons i rest ih =>
    rw [List.filterMap_cons, if_neg (h i (List.mem_cons_self _ _))]
    exact ih (fun j hj => h j (List.mem_cons_of_mem _ hj))

/-! ## Helper lemmas: GoodLines is preserved by removal -/

theorem goodLines_cons_closed (l : Text) (X : List Text) (hl : ClosedLine l)
    (hX : GoodLines X) : GoodLines (l :: X) := by
  cases hX with
  | nil => exact .single l (Or.inl hl)
  | single x hx => exact .cons l x [] hl (.single x hx)
  | cons x x₂ xs h1 h2 => exact .cons l x (x₂ :: xs) hl (.cons x x₂ xs h1 h2)

theorem goodLines_filter (L : List Text) (p : Text → Bool) (hL : GoodLines L) :
    GoodLines (L.filter p) := by
  induction hL with
  | nil => exact .nil
  | single l hl =>
    rw [List.filter_cons]
    by_cases hp : p l = true
    · rw [if_pos hp]
      exact .single l hl
    · rw [if_neg hp]
      exact .nil
  | cons l l₂ ls h1 h2 ih =>
    rw [List.filter_cons]
    by_cases hp : p l = true
    · rw [if_pos hp]
      exact goodLines_cons_closed l _ h1 ih
    · rw [if_neg hp]
      exact ih

theorem goodLines_head_closed (l : Text) (ls : List Text) (hG : GoodLines (l :: ls))
    (hne : ls ≠ []) : ClosedLine l := by
  cases hG with
  | single _ h => exact absurd rfl hne
  | cons _ _ _ h1 _ => exact h1

theorem goodLines_tail (l : Text) (ls : List Text) (hG : GoodLines (l :: ls))
    (hne : ls ≠ []) : GoodLines ls := by
  cases hG with
  | single _ h => exact absurd rfl hne
  | cons _ _ _ _ h2 => exact h2

/-! ## Helper lemmas: the line index of a line's start offset -/

theorem filter_newline_closed (s : Text) (hns : '\n' ∉ s) :
    ((s ++ ['\n']).filter (fun c => c = '\n')).length = 1 := by
  rw [List.filter_append]
  have h1 : s.filter (fun c => c = '\n') = [] :=
    List.filter_eq_nil_iff.mpr (fun x hx => by
      simp only [decide_eq_true_eq]
      exact fun hxx => hns (hxx ▸ hx))
  rw [h1, List.nil_append]
  rfl

theorem count_newlines_take_flatten (L : List Text) (hL : GoodLines L) (k : Nat)
    (hk : k < L.length) :
    (((L.take k).flatten).filter (fun c => c = '\n')).length = k := by
  induction L generalizing k with
  | nil => simp at hk
  | cons l ls ih =>
    cases k with
    | zero => rfl
    | succ k =>
      have hkl : k < ls.length := by
        rw [List.length_cons] at hk
        omega
      have hlsne : ls ≠ [] := by
        intro h
        rw [h] at hkl
        simp at hkl
      have hcl : ClosedLine l := goodLines_head_closed l ls hL hlsne
      have hGls : GoodLines ls := goodLines_tail l ls hL hlsne
      rcases hcl with ⟨s, rfl, hns⟩
      rw [List.take_succ_cons, List.flatten_cons, List.filter_append, List.length_append,
        filter_newline_closed s hns, ih hGls k hkl]
      omega

theorem lineIndexAt_offsetOfLine (L : List Text) (hL : GoodLines L) (k : Nat)
    (hk : k < L.length) :
    lineIndexAt L.flatten (offsetOfLine L k) = k := by
  rw [lineIndexAt, take_offset_flatten]
  exact count_newlines_take_flatten L hL k hk

/-! ## Claim C7: idempotence of the pipeline -/

/-- C7: running the full pipeline — parse, extract, collect, resolve, plan,
apply — a second time, on the text produced by one successful removal pass,
yields zero findings. -/
theorem c7_pipeline_idempotent (t : Text) :
    findUnusedImports
        (parseText (applyRemovalEdits t (findUnusedImports (parseText t) t)))
        (applyRemovalEdits t (findUnusedImports (parseText t) t)) = [] := by
  obtain ⟨L, hL⟩ : ∃ L, splitLinesKB t = L := ⟨_, rfl⟩
  have hGood : GoodLines L := hL ▸ goodLines_splitLinesKB t
  have hflat : L.flatten = t := by rw [← hL, flatten_splitLinesKB]
  have hne : ∀ l ∈ L, l ≠ [] := hL ▸ splitLinesKB_ne_nil t
  have hfnd : findUnusedImports (parseText t) t = findingsOfLines (usedOfLines L) t 0 L := by
    rw [findUnusedImports, collectImports_parseText, collectUsedIdentifiers_parseText, hL,
      filterUnused_importsOfLines]
  have hstarts : (findingsOfLines (usedOfLines L) t 0 L).map (fun u => u.start) =
      (flaggedIdxs (usedOfLines L) L).map (fun k => offsetOfLine L k) := by
    rw [findingsOfLines_starts]
    exact List.map_congr_left (fun k _ => Nat.zero_add _)
  have hkval : ∀ k ∈ flaggedIdxs (usedOfLines L) L, k < L.length :=
    flaggedIdxs_lt_length (usedOfLines L) L
  have hmono : ((flaggedIdxs (usedOfLines L) L).map (fun k => offsetOfLine L k)).Pairwise
      (fun a b => a < b) := by
    refine List.pairwise_map.mpr ?_
    refine List.Pairwise.imp_of_mem ?_ (flaggedIdxs_sorted (usedOfLines L) L)
    intro a b _ hb hab
    exact offsetOfLine_strict_mono L hne a b hab (Nat.le_of_lt (hkval b hb))
  have hinc : (findingsOfLines (usedOfLines L) t 0 L).Pairwise
      (fun a b => a.start < b.start) :=
    List.pairwise_map.mp (by rw [hstarts]; exact hmono)
  have hsort : sortByStartDesc (findingsOfLines (usedOfLines L) t 0 L) =
      (findingsOfLines (usedOfLines L) t 0 L).reverse :=
    sortByStartDesc_of_strictInc _ hinc
  have hlineIdx : (findingsOfLines (usedOfLines L) t 0 L).map
      (fun f => lineIndexAt t f.start) = flaggedIdxs (usedOfLines L) L := by
    have h1 : (findingsOfLines (usedOfLines L) t 0 L).map (fun f => lineIndexAt t f.start) =
        ((findingsOfLines (usedOfLines L) t 0 L).map (fun u => u.start)).map
          (lineIndexAt t) := by
      rw [List.map_map]
      rfl
    rw [h1, hstarts, List.map_map]
    have h2 : ∀ k ∈ flaggedIdxs (usedOfLines L) L,
        (lineIndexAt t ∘ fun k => offsetOfLine L k) k = k := by
      intro k hk
      show lineIndexAt t (offsetOfLine L k) = k
      rw [← hflat]
      exact lineIndexAt_offsetOfLine L hGood k (hkval k hk)
    rw [List.map_congr_left h2]
    exact List.map_id' _
  have happly : applyRemovalEdits t (findingsOfLines (usedOfLines L) t 0 L) =
      (L.filter (fun l => ! flagLineB (usedOfLines L) l)).flatten := by
    rw [applyRemovalEdits, hsort]
    have h1 : ((findingsOfLines (usedOfLines L) t 0 L).reverse).map (planEdit t) =
        (((findingsOfLines (usedOfLines L) t 0 L).reverse).map
            (fun f => lineIndexAt t f.start)).map
          (fun k => (offsetOfLine (splitLinesKB t) k, offsetOfLine (splitLinesKB t) (k + 1))) := by
      rw [List.map_map]
      refine List.map_congr_left (fun f _ => ?_)
      rw [planEdit_fst_snd]
      rfl
    rw [h1, List.map_reverse, hlineIdx, hL, ← hflat]
    have hdesc : ((flaggedIdxs (usedOfLines L) L).reverse).Pairwise (fun a b => b < a) :=
      List.pairwise_reverse.mpr (flaggedIdxs_sorted (usedOfLines L) L)
    have hval : ∀ k ∈ (flaggedIdxs (usedOfLines L) L).reverse, k < L.length :=
      fun k hk => hkval k (List.mem_reverse.mp hk)
    rw [foldl_deleteRange_desc ((flaggedIdxs (usedOfLines L) L).reverse) L hdesc hval,
      keepLines_congr L _ (fun k => (flaggedIdxs (usedOfLines L) L).contains k)
        (fun k => contains_reverse _ k),
      keepLines_flaggedIdxs]
  rw [hfnd, happly]
  obtain ⟨F, hF⟩ : ∃ F, L.filter (fun l => ! flagLineB (usedOfLines L) l) = F := ⟨_, rfl⟩
  rw [hF]
  have hGoodF : GoodLines F := hF ▸ goodLines_filter L _ hGood
  have hsplitF : splitLinesKB F.flatten = F := splitLinesKB_flatten_of_good F hGoodF
  rw [findUnusedImports, collectImports_parseText, collectUsedIdentifiers_parseText, hsplitF]
  have husedF : usedOfLines F = usedOfLines L := by
    rw [← hF]
    exact usedOfLines_filter_flagged (usedOfLines L) L
  rw [husedF]
  refine filterUnused_eq_nil_of_none_flagged _ _ _ ?_
  intro i hi
  rcases mem_importsOfLines 0 F i hi with ⟨l, hl, clause, hp, hnames⟩
  have hlmem : l ∈ L.filter (fun x => ! flagLineB (usedOfLines L) x) := hF ▸ hl
  have hflag : flagLineB (usedOfLines L) l = false := by
    have hmf := (List.mem_filter.mp hlmem).2
    cases h : flagLineB (usedOfLines L) l with
    | false => rfl
    | true =>
      rw [h] at hmf
      exact absurd hmf (by decide)
  intro hfr
  have hfr0 : flagRecord ⟨importedNamesOfClause clause, 0, 0⟩ (usedOfLines L) :=
    ⟨hnames ▸ hfr.1, hnames ▸ hfr.2⟩
  have hnot : ¬ flagRecord ⟨importedNamesOfClause clause, 0, 0⟩ (usedOfLines L) := by
    apply of_decide_eq_false
    rw [← flagLineB_some (usedOfLines L) l clause hp 0 0]
    exact hflag
  exact hnot hfr0

end Kazuki
